import Mathlib

/-!
# Verification of the gradient-checkpointing state store (`burn-autodiff/src/checkpoint/state.rs`)

A shallow embedding of the `State` enum and the `BackwardStates` map from the
source, together with proofs about the reference-counting protocol.

Modelling conventions:
* `NodeID` is modelled as `Nat` (an opaque hashable identifier in the source).
* The type-erased payload `StateContent = Box<dyn Any + Send + Sync>` is
  modelled as a pair of a dynamic type tag and a value (`ty`, `val`), both
  `Nat`; `downcast::<T>` succeeds exactly when the stored tag equals the
  requested tag.  Cloning a payload is the identity on this model.
* The `HashMap<NodeID, State>` is modelled as an association list with
  unique keys; `remove` erases every binding of the key, `insert` replaces.
* A Rust `panic!` / `unreachable!` / `.unwrap()` failure is modelled by the
  operation returning `none`; a normal return is `some`.
-/

namespace Burn

/-- Model of `StateContent = Box<dyn Any + Send + Sync>`: a dynamic type tag
together with the carried value. -/
structure StateContent where
  ty : Nat
  val : Nat
  deriving DecidableEq, Repr

/-- `downcast::<T>` on a boxed any-value: succeeds iff the dynamic type tag
matches the requested one. Models both `downcast_ref` (plus clone) and the
owned `downcast`, which coincide on this model. -/
def downcast (T : Nat) (c : StateContent) : Option Nat :=
  if c.ty = T then some c.val else none

/-- The `State` enum: the state contained at one node. -/
inductive State where
  /-- The state was not checkpointed, will need to recompute it from the node's parents -/
  | Recompute (n_required : Nat)
  /-- The state was checkpointed or computed during retropropagation -/
  | Computed (state_content : StateContent) (n_required : Nat)
  deriving DecidableEq, Repr

namespace State

/-- `State::n_required`: the number of times the state is required. -/
def n_required : State → Nat
  | .Recompute n => n
  | .Computed _ n => n

/-- `State::to_state_content`: reference to the payload; `unreachable!` on
`Recompute` (modelled by `none`). -/
def to_state_content : State → Option StateContent
  | .Recompute _ => none
  | .Computed c _ => some c

/-- `State::into_state_content`: owned payload; `unreachable!` on `Recompute`
(modelled by `none`). -/
def into_state_content : State → Option StateContent
  | .Recompute _ => none
  | .Computed c _ => some c

/-- `State::increment`: counter += 1 in either variant. -/
def increment : State → State
  | .Recompute n => .Recompute (n + 1)
  | .Computed c n => .Computed c (n + 1)

/-- `State::merge(self, other)`: sums counters when both sides have the same
variant (keeping `self`'s payload in the `Computed` case), `panic!`s on a
mixed combination (modelled by `none`). -/
def merge : State → State → Option State
  | .Recompute n, .Recompute m => some (.Recompute (n + m))
  | .Computed _ _, .Recompute _ => none
  | .Recompute _, .Computed _ _ => none
  | .Computed c n, .Computed _ m => some (.Computed c (n + m))

/-- Discriminator for the two variants (`true` = `Computed`). -/
def isComputed : State → Bool
  | .Recompute _ => false
  | .Computed _ _ => true

end State

/-- A `NodeID` is an opaque hashable identifier. -/
abbrev NodeID := Nat

/-- `BackwardStates`: the `HashMap<NodeID, State>`, as an association list. -/
abbrev BackwardStates := List (NodeID × State)

namespace BackwardStates

/-- `HashMap::get` / `BackwardStates::get_state_ref`: first binding of the key. -/
def get_state_ref : BackwardStates → NodeID → Option State
  | [], _ => none
  | (k, s) :: rest, id => if k = id then some s else get_state_ref rest id

/-- `HashMap::remove` (drop the binding of the key). -/
def eraseKey : BackwardStates → NodeID → BackwardStates
  | [], _ => []
  | (k, s) :: rest, id =>
    if k = id then eraseKey rest id else (k, s) :: eraseKey rest id

/-- `HashMap::insert` (replace any existing binding of the key). -/
def insertKey (m : BackwardStates) (id : NodeID) (s : State) : BackwardStates :=
  (id, s) :: eraseKey m id

/-- `BackwardStates::insert_state`: unconditionally associates a `State` to a `NodeID`. -/
def insert_state (m : BackwardStates) (id : NodeID) (s : State) : BackwardStates :=
  insertKey m id s

/-- `BackwardStates::get_state::<T>`: removes the entry (`.unwrap()` on a
missing key = `none`), decrements the counter, reinserts if still required,
and returns the downcast payload.  Follows the source line by line: in the
reinsertion branch `to_state_content` is called on the new state *before* the
reinsert, so a `Recompute` state makes the whole call fail with nothing
reinserted. -/
def get_state (T : Nat) (m : BackwardStates) (id : NodeID) :
    Option (Nat × BackwardStates) :=
  match get_state_ref m id with
  | none => none
  | some state =>
    let m0 := eraseKey m id
    let remaining_n_required := state.n_required - 1
    if remaining_n_required > 0 then
      let new_stored_state : State :=
        match state with
        | .Recompute _ => .Recompute remaining_n_required
        | .Computed c _ => .Computed c remaining_n_required
      match new_stored_state.to_state_content with
      | none => none
      | some c =>
        match downcast T c with
        | none => none
        | some v => some (v, insert_state m0 id new_stored_state)
    else
      match state.into_state_content with
      | none => none
      | some c =>
        match downcast T c with
        | none => none
        | some v => some (v, m0)

/-- `BackwardStates::save::<T>`: reads the current `n_required` of the
existing entry (`.unwrap()` on a missing key = `none`) and replaces the entry
with `Computed { state_content: Box::new(saved_output), n_required }`. -/
def save (m : BackwardStates) (id : NodeID) (T v : Nat) : Option BackwardStates :=
  match get_state_ref m id with
  | none => none
  | some s => some (insert_state m id (.Computed ⟨T, v⟩ s.n_required))

/-- `BackwardStates::extend`: folds `other`'s entries into `self`, merging
states of nodes present on both sides via `State::merge` (whose `panic!` is
propagated as `none`). -/
def extend : BackwardStates → BackwardStates → Option BackwardStates
  | m, [] => some m
  | m, (id, s) :: rest =>
    match get_state_ref m id with
    | some s0 =>
      match s0.merge s with
      | some s1 => extend (insertKey (eraseKey m id) id s1) rest
      | none => none
    | none => extend (insertKey m id s) rest

/-- `BackwardStates::len`. -/
def len (m : BackwardStates) : Nat := m.length

/-- The caller-side pattern `get_mut(id).map(State::increment)`: increments
the counter of the entry at `id` in place, a no-op when absent. -/
def incrementAt (m : BackwardStates) (id : NodeID) : BackwardStates :=
  match get_state_ref m id with
  | some s => insertKey m id s.increment
  | none => m

/-- The map invariant from the spec: every entry present has `n_required > 0`. -/
def invariant (m : BackwardStates) : Bool :=
  m.all (fun e => 0 < e.2.n_required)

/-- Invariant lifted to the result of a possibly-panicking operation: a
panic leaves no resulting map to constrain. -/
def invariantO : Option BackwardStates → Bool
  | none => true
  | some m => invariant m

/-- The `n_required` counter stored at `id`, if present. -/
def nReqAt (m : BackwardStates) (id : NodeID) : Option Nat :=
  (get_state_ref m id).map State.n_required

/-- The variant (kind) stored at `id`, if present (`true` = `Computed`). -/
def kindAt (m : BackwardStates) (id : NodeID) : Option Bool :=
  (get_state_ref m id).map State.isComputed

/-- Compatibility check of two maps: every node present in both carries the
same variant on both sides. -/
def compatible (A B : BackwardStates) : Bool :=
  B.all (fun e =>
    match get_state_ref A e.1 with
    | some s => s.isComputed == e.2.isComputed
    | none => true)

/-- Keys are pairwise distinct (the `HashMap` representation invariant). -/
def NodupKeys (m : BackwardStates) : Prop :=
  (m.map Prod.fst).Nodup

instance (m : BackwardStates) : Decidable (NodupKeys m) := by
  unfold NodupKeys; infer_instance

end BackwardStates

/-- Pointwise combination of optional counters: sum when both present. -/
def addO : Option Nat → Option Nat → Option Nat
  | none, b => b
  | some a, none => some a
  | some a, some b => some (a + b)

/-- Pointwise combination of optional kinds: keep the first when both present
(they agree on compatible maps). -/
def orK : Option Bool → Option Bool → Option Bool
  | none, b => b
  | some a, _ => some a

/-- Propositional compatibility: any node present in both maps carries the
same variant in both. -/
def KCompat (A B : BackwardStates) : Prop :=
  ∀ id kA kB, BackwardStates.kindAt A id = some kA →
    BackwardStates.kindAt B id = some kB → kA = kB

end Burn

namespace Burn

open BackwardStates

/-! ## Basic map lemmas -/

theorem get_state_ref_eraseKey (m : BackwardStates) (id id' : NodeID) :
    get_state_ref (eraseKey m id) id' =
      if id' = id then none else get_state_ref m id' := by
  induction m with
  | nil => simp [eraseKey, get_state_ref]
  | cons e rest ih =>
    obtain ⟨k, s⟩ := e
    by_cases hk : k = id
    · subst hk
      rw [show eraseKey ((k, s) :: rest) k = eraseKey rest k from if_pos rfl, ih]
      by_cases h' : id' = k
      · simp [h']
      · have hk' : ¬ k = id' := fun h => h' h.symm
        simp [get_state_ref, h', hk']
    · rw [show eraseKey ((k, s) :: rest) id = (k, s) :: eraseKey rest id from if_neg hk]
      by_cases h' : k = id'
      · subst h'
        simp [get_state_ref, hk]
      · simp [get_state_ref, h', ih]

theorem get_state_ref_insertKey (m : BackwardStates) (id id' : NodeID) (s : State) :
    get_state_ref (insertKey m id s) id' =
      if id' = id then some s else get_state_ref m id' := by
  simp only [insertKey, get_state_ref]
  by_cases h : id = id'
  · subst h; simp
  · have h' : ¬ id' = id := fun hh => h hh.symm
    simp [h, h', get_state_ref_eraseKey]

theorem mem_eraseKey (m : BackwardStates) (id : NodeID) (e : NodeID × State)
    (he : e ∈ eraseKey m id) : e ∈ m := by
  induction m with
  | nil => simp [eraseKey] at he
  | cons f rest ih =>
    obtain ⟨k, s⟩ := f
    by_cases hk : k = id
    · rw [show eraseKey ((k, s) :: rest) id = eraseKey rest id from if_pos hk] at he
      exact List.mem_cons_of_mem _ (ih he)
    · rw [show eraseKey ((k, s) :: rest) id = (k, s) :: eraseKey rest id from if_neg hk] at he
      rcases List.mem_cons.mp he with h | h
      · exact h ▸ List.mem_cons_self _ _
      · exact List.mem_cons_of_mem _ (ih h)

theorem get_state_ref_mem (m : BackwardStates) (id : NodeID) (s : State)
    (h : get_state_ref m id = some s) : (id, s) ∈ m := by
  induction m with
  | nil => simp [get_state_ref] at h
  | cons f rest ih =>
    obtain ⟨k, t⟩ := f
    by_cases hk : k = id
    · rw [get_state_ref, if_pos hk] at h
      injection h with h2
      subst hk; subst h2
      exact List.mem_cons_self _ _
    · rw [get_state_ref, if_neg hk] at h
      exact List.mem_cons_of_mem _ (ih h)

theorem invariant_iff (m : BackwardStates) :
    invariant m = true ↔ ∀ e ∈ m, 0 < e.2.n_required := by
  simp [invariant]

theorem invariant_eraseKey (m : BackwardStates) (id : NodeID)
    (h : invariant m = true) : invariant (eraseKey m id) = true := by
  rw [invariant_iff] at h ⊢
  exact fun e he => h e (mem_eraseKey m id e he)

theorem invariant_insertKey (m : BackwardStates) (id : NodeID) (s : State)
    (hm : invariant m = true) (hs : 0 < s.n_required) :
    invariant (insertKey m id s) = true := by
  rw [invariant_iff] at hm ⊢
  intro e he
  rcases List.mem_cons.mp he with h | h
  · rw [h]; exact hs
  · exact hm e (mem_eraseKey m id e h)

theorem invariant_lookup (m : BackwardStates) (id : NodeID) (s : State)
    (hm : invariant m = true) (h : get_state_ref m id = some s) :
    0 < s.n_required :=
  (invariant_iff m).mp hm (id, s) (get_state_ref_mem m id s h)

theorem merge_n_required (a b c : State) (h : a.merge b = some c) :
    c.n_required = a.n_required + b.n_required := by
  cases a <;> cases b <;> simp [State.merge] at h <;> subst h <;> rfl

theorem merge_isComputed (a b c : State) (h : a.merge b = some c) :
    c.isComputed = a.isComputed := by
  cases a <;> cases b <;> simp [State.merge] at h <;> subst h <;> rfl

theorem merge_some_of_sameKind (a b : State) (h : a.isComputed = b.isComputed) :
    ∃ c, a.merge b = some c := by
  cases a <;> cases b <;> simp_all [State.merge, State.isComputed]

theorem get_state_recompute_eq_none (m : BackwardStates) (id : NodeID) (T n : Nat)
    (h : get_state_ref m id = some (.Recompute n)) :
    get_state T m id = none := by
  unfold get_state
  rw [h]
  by_cases hn : 0 < n - 1 <;>
    simp [State.n_required, hn, State.to_state_content, State.into_state_content]

theorem n_required_increment (s : State) :
    s.increment.n_required = s.n_required + 1 := by
  cases s <;> rfl

/-- Full characterization of a successfully returning `get_state` call:
the entry was `Computed`, the payload's tag matched, the returned value is
the payload's value, and the resulting map either holds the decremented
entry (when more uses remain) or lost the entry (final consumption). -/
theorem get_state_cases (T : Nat) (m : BackwardStates) (id : NodeID) (r : Nat)
    (m' : BackwardStates) (h : get_state T m id = some (r, m')) :
    (∃ c n, get_state_ref m id = some (.Computed c n) ∧ 1 < n ∧
        r = c.val ∧ c.ty = T ∧
        m' = insertKey (eraseKey m id) id (.Computed c (n - 1))) ∨
    (∃ c n, get_state_ref m id = some (.Computed c n) ∧ n ≤ 1 ∧
        r = c.val ∧ c.ty = T ∧ m' = eraseKey m id) := by
  unfold get_state at h
  cases hL : get_state_ref m id <;> rw [hL] at h
  · exact Option.noConfusion h
  case some state =>
    dsimp only at h
    cases state with
    | Recompute n =>
      by_cases hn : 0 < State.n_required (.Recompute n) - 1 <;>
        simp [hn, State.to_state_content, State.into_state_content] at h
    | Computed c n =>
      by_cases hn : 0 < State.n_required (.Computed c n) - 1
      · rw [if_pos hn] at h
        simp only [State.to_state_content, downcast] at h
        by_cases ht : c.ty = T
        · rw [if_pos ht] at h
          injection h with hp
          have hr : r = c.val := (congrArg Prod.fst hp).symm
          have hm : m' = insertKey (eraseKey m id) id
              (.Computed c (State.n_required (.Computed c n) - 1)) :=
            (congrArg Prod.snd hp).symm
          left
          exact ⟨c, n, rfl, by simpa [State.n_required] using hn, hr, ht, hm⟩
        · rw [if_neg ht] at h
          exact Option.noConfusion h
      · rw [if_neg hn] at h
        simp only [State.into_state_content, downcast] at h
        by_cases ht : c.ty = T
        · rw [if_pos ht] at h
          injection h with hp
          have hr : r = c.val := (congrArg Prod.fst hp).symm
          have hm : m' = eraseKey m id := (congrArg Prod.snd hp).symm
          right
          exact ⟨c, n, rfl, by simpa [State.n_required] using hn, hr, ht, hm⟩
        · rw [if_neg ht] at h
          exact Option.noConfusion h

/-! ## Claim theorems -/

/-- C1: if the entry at `id` is `Computed` with payload `v` of type `T` and
counter `n`, then for `n > 1` `get_state::<T>(id)` returns a clone of `v` and
leaves `Computed` with the same payload and counter `n - 1` at `id`; for
`n = 1` it returns `v` by value and afterwards the map has no entry at `id`. -/
theorem get_state_computed_spec (m : BackwardStates) (id : NodeID) (T v n : Nat)
    (h : get_state_ref m id = some (.Computed ⟨T, v⟩ n)) :
    (1 < n → ∃ m', get_state T m id = some (v, m') ∧
        get_state_ref m' id = some (.Computed ⟨T, v⟩ (n - 1))) ∧
    (n = 1 → ∃ m', get_state T m id = some (v, m') ∧
        get_state_ref m' id = none) := by
  constructor
  · intro hn
    have h0 : 0 < n - 1 := by omega
    refine ⟨insert_state (eraseKey m id) id (.Computed ⟨T, v⟩ (n - 1)), ?_, ?_⟩
    · simp [get_state, h, State.n_required, h0, State.to_state_content, downcast]
    · simp [insert_state, get_state_ref_insertKey]
  · intro hn
    subst hn
    refine ⟨eraseKey m id, ?_, ?_⟩
    · simp [get_state, h, State.n_required, State.into_state_content, downcast]
    · simp [get_state_ref_eraseKey]

theorem get_state_computed_spec_witness :
    ∃ m', get_state 5 [(0, State.Computed ⟨5, 7⟩ 2)] 0 = some (7, m') ∧
      get_state_ref m' 0 = some (State.Computed ⟨5, 7⟩ 1) :=
  (get_state_computed_spec [(0, State.Computed ⟨5, 7⟩ 2)] 0 5 7 2 rfl).1
    (by decide)

/-- C4: `save(id, v)` on a map with an existing entry of counter `k` replaces
that entry with `Computed { payload: v, n_required: k }` (counter unchanged),
and on a map with no entry at `id` it fails fatally. -/
theorem save_spec (m : BackwardStates) (id : NodeID) (T v : Nat) :
    (∀ s, get_state_ref m id = some s →
      ∃ m', save m id T v = some m' ∧
        get_state_ref m' id = some (.Computed ⟨T, v⟩ s.n_required)) ∧
    (get_state_ref m id = none → save m id T v = none) := by
  constructor
  · intro s hs
    refine ⟨insert_state m id (.Computed ⟨T, v⟩ s.n_required), ?_, ?_⟩
    · simp [save, hs]
    · simp [insert_state, get_state_ref_insertKey]
  · intro h
    simp [save, h]

theorem save_spec_witness :
    ∃ m', save [(4, State.Recompute 3)] 4 1 9 = some m' ∧
      get_state_ref m' 4 = some (State.Computed ⟨1, 9⟩ 3) :=
  (save_spec [(4, State.Recompute 3)] 4 1 9).1 (State.Recompute 3) rfl

/-- C5: `State::merge` sums counters on matching variants (keeping the left
payload in the `Computed` case) and fails fatally on mixed variants. -/
theorem merge_spec (n m : Nat) (p q : StateContent) :
    State.merge (.Recompute n) (.Recompute m) = some (.Recompute (n + m)) ∧
    State.merge (.Computed p n) (.Computed q m) = some (.Computed p (n + m)) ∧
    State.merge (.Recompute n) (.Computed q m) = none ∧
    State.merge (.Computed p n) (.Recompute m) = none :=
  ⟨rfl, rfl, rfl, rfl⟩

/-- C7: `get_state` on a node with no entry fails fatally; it never returns a
default value or silently no-ops. -/
theorem get_state_missing_fatal (m : BackwardStates) (id : NodeID) (T : Nat)
    (h : get_state_ref m id = none) :
    get_state T m id = none := by
  simp [get_state, h]

theorem get_state_missing_fatal_witness :
    get_state 0 ([] : BackwardStates) 0 = none :=
  get_state_missing_fatal [] 0 0 rfl

/-- C8: payload access (`to_state_content` / `into_state_content`) fails
fatally on the `Recompute` variant and succeeds exactly on `Computed`; hence
a `get_state` call reaching payload access on a `Recompute` entry fails. -/
theorem payload_access_spec (n k : Nat) (c : StateContent) :
    State.to_state_content (.Recompute n) = none ∧
    State.into_state_content (.Recompute n) = none ∧
    State.to_state_content (.Computed c k) = some c ∧
    State.into_state_content (.Computed c k) = some c ∧
    ∀ (m : BackwardStates) (id : NodeID) (T : Nat),
      get_state_ref m id = some (.Recompute n) → get_state T m id = none := by
  refine ⟨rfl, rfl, rfl, rfl, ?_⟩
  intro m id T h
  exact get_state_recompute_eq_none m id T n h

theorem payload_access_spec_witness :
    get_state 0 [(0, State.Recompute 2)] 0 = none :=
  (payload_access_spec 2 1 ⟨0, 0⟩).2.2.2.2 [(0, State.Recompute 2)] 0 0 rfl

/-- C10: `save(id, v)` does not require a `Recompute` placeholder: on an
existing `Computed { payload: old, n_required: k }` entry it succeeds and
replaces it with `Computed { payload: v, n_required: k }`. -/
theorem save_overwrites_computed (m : BackwardStates) (id : NodeID) (T v : Nat)
    (old : StateContent) (k : Nat)
    (h : get_state_ref m id = some (.Computed old k)) :
    ∃ m', save m id T v = some m' ∧
      get_state_ref m' id = some (.Computed ⟨T, v⟩ k) := by
  refine ⟨insert_state m id (.Computed ⟨T, v⟩ k), ?_, ?_⟩
  · simp [save, h, State.n_required, insert_state]
  · simp [insert_state, get_state_ref_insertKey]

theorem save_overwrites_computed_witness :
    ∃ m', save [(2, State.Computed ⟨9, 1⟩ 4)] 2 3 8 = some m' ∧
      get_state_ref m' 2 = some (State.Computed ⟨3, 8⟩ 4) :=
  save_overwrites_computed [(2, State.Computed ⟨9, 1⟩ 4)] 2 3 8 ⟨9, 1⟩ 4 rfl

/-- C6 counterexample: for the map `{0 ↦ Recompute 2}`, `get_state(0)` does
not return successfully with the decremented `Recompute 1` reinserted — the
call panics in `to_state_content` before the reinsert can happen. -/
theorem get_state_recompute_reinsert_cex :
    ¬ ∃ v m', get_state 0 [(0, State.Recompute 2)] 0 = some (v, m') ∧
      get_state_ref m' 0 = some (State.Recompute 1) := by
  rintro ⟨v, m', h, -⟩
  rw [show get_state 0 [(0, State.Recompute 2)] 0 = none from rfl] at h
  exact Option.noConfusion h

/-- C6 amended: on an entry `Recompute n` with `n > 1`, `get_state(id)` fails
fatally (it calls `to_state_content` on the rebuilt `Recompute` state before
reinserting, which panics), so the decremented state is never reinserted. -/
theorem get_state_recompute_fatal_thm (m : BackwardStates) (id : NodeID)
    (T n : Nat) (h : get_state_ref m id = some (.Recompute n)) (_hn : 1 < n) :
    get_state T m id = none :=
  get_state_recompute_eq_none m id T n h

theorem get_state_recompute_fatal_thm_witness :
    get_state 1 [(3, State.Recompute 2)] 3 = none :=
  get_state_recompute_fatal_thm [(3, State.Recompute 2)] 3 1 2 rfl (by decide)

/-- C9: a successfully returning `get_state(id1)`, `save(id1, v)` or
`insert_state(id1, s)` leaves the entry at any other node `id2` exactly as it
was. -/
theorem untouched_other_keys (m : BackwardStates) (id1 id2 : NodeID)
    (T v : Nat) (s : State) (hne : id1 ≠ id2) :
    (∀ r m', get_state T m id1 = some (r, m') →
      get_state_ref m' id2 = get_state_ref m id2) ∧
    (∀ m', save m id1 T v = some m' →
      get_state_ref m' id2 = get_state_ref m id2) ∧
    get_state_ref (insert_state m id1 s) id2 = get_state_ref m id2 := by
  have hne' : ¬ id2 = id1 := fun h => hne h.symm
  refine ⟨?_, ?_, ?_⟩
  · intro r m' h
    rcases get_state_cases T m id1 r m' h with
      ⟨c, n, _, _, _, _, hm⟩ | ⟨c, n, _, _, _, _, hm⟩
    · rw [hm, get_state_ref_insertKey, if_neg hne', get_state_ref_eraseKey,
        if_neg hne']
    · rw [hm, get_state_ref_eraseKey, if_neg hne']
  · intro m' h
    unfold save at h
    cases hL : get_state_ref m id1 <;> rw [hL] at h
    · exact Option.noConfusion h
    · injection h with h1
      rw [← h1, insert_state, get_state_ref_insertKey, if_neg hne']
  · rw [insert_state, get_state_ref_insertKey, if_neg hne']

theorem untouched_other_keys_witness :
    get_state_ref
        (insert_state [(1, State.Recompute 4)] 0 (State.Recompute 2)) 1 =
      get_state_ref [(1, State.Recompute 4)] 1 :=
  (untouched_other_keys [(1, State.Recompute 4)] 0 1 0 0 (State.Recompute 2)
    (by decide)).2.2

/-- C2 counterexample: `insert_state` does not preserve the invariant "every
entry has `n_required > 0`": inserting `Recompute { n_required: 0 }` into the
empty map (which satisfies the invariant) leaves a zero-counter entry. -/
theorem insert_zero_breaks_invariant :
    invariant ([] : BackwardStates) = true ∧
    invariant (insert_state [] 0 (State.Recompute 0)) = false := by
  constructor <;> rfl

theorem extend_invariant :
    ∀ (other m : BackwardStates), invariant m = true → invariant other = true →
      ∀ m', extend m other = some m' → invariant m' = true := by
  intro other
  induction other with
  | nil =>
    intro m hm _ m' h
    rw [extend] at h
    injection h with h1
    rwa [← h1]
  | cons e rest ih =>
    obtain ⟨id0, s0⟩ := e
    intro m hm ho m' h
    have ho' : invariant rest = true := by
      rw [invariant_iff] at ho ⊢
      exact fun f hf => ho f (List.mem_cons_of_mem _ hf)
    have hs0 : 0 < s0.n_required :=
      (invariant_iff _).mp ho (id0, s0) (List.mem_cons_self _ _)
    rw [extend] at h
    cases hL : get_state_ref m id0 <;> rw [hL] at h <;> dsimp only at h
    · exact ih (insertKey m id0 s0) (invariant_insertKey m id0 s0 hm hs0)
        ho' m' h
    case some s1 =>
      cases hM : s1.merge s0 <;> rw [hM] at h <;> dsimp only at h
      · exact Option.noConfusion h
      case some s2 =>
        have h2 : 0 < s2.n_required := by
          rw [merge_n_required s1 s0 s2 hM]
          have := invariant_lookup m id0 s1 hm hL
          omega
        exact ih _ (invariant_insertKey _ id0 s2
          (invariant_eraseKey m id0 hm) h2) ho' m' h

/-- C2 amended: the invariant "every entry has `n_required > 0`" is preserved
by `get_state`, `save`, `extend` (when the merged-in map also satisfies it)
and `increment` via `get_mut`; `insert_state` preserves it only when the
inserted state itself has a positive counter (it inserts unconditionally and
can plant a zero-counter entry otherwise). -/
theorem invariant_preserved_amended (m other : BackwardStates) (id : NodeID)
    (T v : Nat) (s : State)
    (hm : invariant m = true) (ho : invariant other = true)
    (hs : 0 < s.n_required) :
    (∀ r m', get_state T m id = some (r, m') → invariant m' = true) ∧
    (∀ m', save m id T v = some m' → invariant m' = true) ∧
    invariant (insert_state m id s) = true ∧
    (∀ m', extend m other = some m' → invariant m' = true) ∧
    invariant (incrementAt m id) = true := by
  refine ⟨?_, ?_, ?_, ?_, ?_⟩
  · intro r m' h
    rcases get_state_cases T m id r m' h with
      ⟨c, n, _, hn, _, _, hmp⟩ | ⟨c, n, _, _, _, _, hmp⟩
    · rw [hmp]
      exact invariant_insertKey _ id _ (invariant_eraseKey m id hm)
        (by simpa [State.n_required] using Nat.sub_pos_of_lt hn)
    · rw [hmp]
      exact invariant_eraseKey m id hm
  · intro m' h
    unfold save at h
    cases hL : get_state_ref m id <;> rw [hL] at h
    · exact Option.noConfusion h
    case some s1 =>
      injection h with h1
      rw [← h1, insert_state]
      exact invariant_insertKey m id _ hm
        (by simpa [State.n_required] using invariant_lookup m id s1 hm hL)
  · exact invariant_insertKey m id s hm hs
  · exact extend_invariant other m hm ho
  · unfold incrementAt
    cases hL : get_state_ref m id
    · exact hm
    case some s1 =>
      exact invariant_insertKey m id _ hm (by rw [n_required_increment]; omega)

theorem invariant_preserved_amended_witness :
    invariant (insert_state [(0, State.Recompute 1)] 2 (State.Recompute 5))
      = true :=
  (invariant_preserved_amended [(0, State.Recompute 1)] [] 2 0 0
    (State.Recompute 5) rfl rfl (by decide)).2.2.1

/-! ## Order independence of `extend` -/

theorem addO_none_right (x : Option Nat) : addO x none = x := by
  cases x <;> rfl

theorem addO_comm (x y : Option Nat) : addO x y = addO y x := by
  cases x <;> cases y <;> simp [addO, Nat.add_comm]

theorem addO_assoc (x y z : Option Nat) :
    addO (addO x y) z = addO x (addO y z) := by
  cases x <;> cases y <;> cases z <;> simp [addO, Nat.add_assoc]

theorem orK_none_right (x : Option Bool) : orK x none = x := by
  cases x <;> rfl

theorem get_state_ref_eq_none_of_not_mem_keys (m : BackwardStates)
    (id : NodeID) (h : id ∉ m.map Prod.fst) : get_state_ref m id = none := by
  induction m with
  | nil => rfl
  | cons f rest ih =>
    obtain ⟨k, t⟩ := f
    simp only [List.map_cons, List.mem_cons, not_or] at h
    rw [get_state_ref, if_neg (fun hk => h.1 hk.symm)]
    exact ih h.2

theorem get_state_ref_of_mem_nodup (m : BackwardStates)
    (hnd : NodupKeys m) (e : NodeID × State) (he : e ∈ m) :
    get_state_ref m e.1 = some e.2 := by
  induction m with
  | nil => simp at he
  | cons f rest ih =>
    obtain ⟨k, t⟩ := f
    rw [NodupKeys, List.map_cons, List.nodup_cons] at hnd
    rcases List.mem_cons.mp he with h | h
    · rw [h, get_state_ref, if_pos rfl]
    · have hk : ¬ k = e.1 := by
        intro hk
        exact hnd.1 (hk ▸ (List.mem_map.mpr ⟨e, h, rfl⟩))
      rw [get_state_ref, if_neg hk]
      exact ih hnd.2 h

theorem eraseKey_sublist (m : BackwardStates) (id : NodeID) :
    (eraseKey m id).Sublist m := by
  induction m with
  | nil => exact List.Sublist.refl _
  | cons f rest ih =>
    obtain ⟨k, t⟩ := f
    by_cases hk : k = id
    · rw [show eraseKey ((k, t) :: rest) id = eraseKey rest id from if_pos hk]
      exact ih.cons _
    · rw [show eraseKey ((k, t) :: rest) id = (k, t) :: eraseKey rest id from
        if_neg hk]
      exact ih.cons₂ _

theorem key_ne_of_mem_eraseKey (m : BackwardStates) (id : NodeID)
    (e : NodeID × State) (he : e ∈ eraseKey m id) : e.1 ≠ id := by
  induction m with
  | nil => simp [eraseKey] at he
  | cons f rest ih =>
    obtain ⟨k, t⟩ := f
    by_cases hk : k = id
    · rw [show eraseKey ((k, t) :: rest) id = eraseKey rest id from
        if_pos hk] at he
      exact ih he
    · rw [show eraseKey ((k, t) :: rest) id = (k, t) :: eraseKey rest id from
        if_neg hk] at he
      rcases List.mem_cons.mp he with h3 | h3
      · rw [h3]; exact hk
      · exact ih h3

theorem not_mem_keys_eraseKey (m : BackwardStates) (id : NodeID) :
    id ∉ (eraseKey m id).map Prod.fst := by
  intro h
  rcases List.mem_map.mp h with ⟨e, he, hfst⟩
  exact key_ne_of_mem_eraseKey m id e he hfst

theorem NodupKeys_insertKey (m : BackwardStates) (id : NodeID) (s : State)
    (h : NodupKeys m) : NodupKeys (insertKey m id s) := by
  rw [insertKey, NodupKeys, List.map_cons, List.nodup_cons]
  exact ⟨not_mem_keys_eraseKey m id,
    ((eraseKey_sublist m id).map Prod.fst).nodup h⟩

theorem extend_NodupKeys :
    ∀ (B A : BackwardStates) (m : BackwardStates), NodupKeys A →
      extend A B = some m → NodupKeys m := by
  intro B
  induction B with
  | nil =>
    intro A m hA h
    rw [extend] at h
    injection h with h1
    rwa [← h1]
  | cons e rest ih =>
    obtain ⟨id0, s0⟩ := e
    intro A m hA h
    rw [extend] at h
    cases hL : get_state_ref A id0 <;> rw [hL] at h <;> dsimp only at h
    · exact ih _ m (NodupKeys_insertKey A id0 s0 hA) h
    case some s1 =>
      cases hM : s1.merge s0 <;> rw [hM] at h <;> dsimp only at h
      · exact Option.noConfusion h
      case some s2 =>
        exact ih _ m (NodupKeys_insertKey _ id0 s2
          (((eraseKey_sublist A id0).map Prod.fst).nodup hA)) h

theorem KCompat_of_compatible (A B : BackwardStates)
    (h : compatible A B = true) : KCompat A B := by
  intro id kA kB hA hB
  rw [kindAt] at hA hB
  cases hLA : get_state_ref A id <;> rw [hLA] at hA
  · exact Option.noConfusion hA
  case some sA =>
    cases hLB : get_state_ref B id <;> rw [hLB] at hB
    · exact Option.noConfusion hB
    case some sB =>
      injection hA with hA
      injection hB with hB
      rw [compatible, List.all_eq_true] at h
      have h2 := h (id, sB) (get_state_ref_mem B id sB hLB)
      rw [hLA] at h2
      rw [← hA, ← hB]
      exact eq_of_beq h2

theorem KCompat_symm (A B : BackwardStates) (h : KCompat A B) : KCompat B A :=
  fun id kB kA h1 h2 => (h id kA kB h2 h1).symm

theorem entrywise_of_KCompat (A B : BackwardStates) (hnd : NodupKeys B)
    (h : KCompat A B) :
    ∀ e ∈ B, ∀ s, get_state_ref A e.1 = some s →
      s.isComputed = e.2.isComputed := by
  intro e he s hs
  have h1 : kindAt A e.1 = some s.isComputed := by rw [kindAt, hs]; rfl
  have h2 : kindAt B e.1 = some e.2.isComputed := by
    rw [kindAt, get_state_ref_of_mem_nodup B hnd e he]; rfl
  exact h e.1 _ _ h1 h2

theorem KCompat_of_kindAt_orK (A B R C : BackwardStates)
    (hR : ∀ id, kindAt R id = orK (kindAt A id) (kindAt B id))
    (hAC : KCompat A C) (hBC : KCompat B C) : KCompat R C := by
  intro id kR kC h1 h2
  rw [hR id] at h1
  cases hA : kindAt A id <;> rw [hA] at h1
  · exact hBC id kR kC h1 h2
  case some kA =>
    injection h1 with h1
    exact h1 ▸ hAC id kA kC hA h2

/-- The central characterization of `extend`: on kind-compatible maps it
succeeds, and per node it sums the counters and keeps the (common) kind. -/
theorem extend_char :
    ∀ (B A : BackwardStates), NodupKeys B →
      (∀ e ∈ B, ∀ s, get_state_ref A e.1 = some s →
        s.isComputed = e.2.isComputed) →
      ∃ m, extend A B = some m ∧
        (∀ id, nReqAt m id = addO (nReqAt A id) (nReqAt B id)) ∧
        (∀ id, kindAt m id = orK (kindAt A id) (kindAt B id)) := by
  intro B
  induction B with
  | nil =>
    intro A _ _
    refine ⟨A, by rw [extend], fun id => ?_, fun id => ?_⟩
    · rw [show nReqAt ([] : BackwardStates) id = none from rfl, addO_none_right]
    · rw [show kindAt ([] : BackwardStates) id = none from rfl, orK_none_right]
  | cons e rest ih =>
    obtain ⟨id0, s0⟩ := e
    intro A hnd hcomp
    rw [NodupKeys, List.map_cons, List.nodup_cons] at hnd
    have hnd' : NodupKeys rest := hnd.2
    have hrest0 : get_state_ref rest id0 = none :=
      get_state_ref_eq_none_of_not_mem_keys rest id0 hnd.1
    have hcomp' : ∀ (A' : BackwardStates),
        (∀ id, id ≠ id0 → get_state_ref A' id = get_state_ref A id) →
        ∀ e ∈ rest, ∀ s, get_state_ref A' e.1 = some s →
          s.isComputed = e.2.isComputed := by
      intro A' hsame e he s hs
      have hne : e.1 ≠ id0 := by
        intro hh
        exact hnd.1 (hh ▸ (List.mem_map.mpr ⟨e, he, rfl⟩))
      rw [hsame e.1 hne] at hs
      exact hcomp e (List.mem_cons_of_mem _ he) s hs
    cases hL : get_state_ref A id0
    · -- node absent from the accumulator: plain insert
      have hsame : ∀ id, id ≠ id0 →
          get_state_ref (insertKey A id0 s0) id = get_state_ref A id := by
        intro id hne
        rw [get_state_ref_insertKey, if_neg hne]
      obtain ⟨m, hm, hn, hk⟩ :=
        ih (insertKey A id0 s0) hnd' (hcomp' _ hsame)
      refine ⟨m, ?_, fun id => ?_, fun id => ?_⟩
      · rw [extend, hL]
        exact hm
      · rw [hn id]
        by_cases hid : id = id0
        · subst hid
          simp [nReqAt, get_state_ref_insertKey, get_state_ref, hL, hrest0, addO]
        · rw [nReqAt, get_state_ref_insertKey, if_neg hid,
            show nReqAt ((id0, s0) :: rest) id = nReqAt rest id from by
              rw [nReqAt, get_state_ref, if_neg (fun hh => hid hh.symm)]; rfl]
          rfl
      · rw [hk id]
        by_cases hid : id = id0
        · subst hid
          simp [kindAt, get_state_ref_insertKey, get_state_ref, hL, hrest0, orK]
        · rw [kindAt, get_state_ref_insertKey, if_neg hid,
            show kindAt ((id0, s0) :: rest) id = kindAt rest id from by
              rw [kindAt, get_state_ref, if_neg (fun hh => hid hh.symm)]; rfl]
          rfl
    case some s1 =>
      -- node present on both sides: merge
      have hkind : s1.isComputed = s0.isComputed :=
        hcomp (id0, s0) (List.mem_cons_self _ _) s1 hL
      obtain ⟨s2, hM⟩ := merge_some_of_sameKind s1 s0 hkind
      have hsame : ∀ id, id ≠ id0 →
          get_state_ref (insertKey (eraseKey A id0) id0 s2) id =
            get_state_ref A id := by
        intro id hne
        rw [get_state_ref_insertKey, if_neg hne, get_state_ref_eraseKey,
          if_neg hne]
      obtain ⟨m, hm, hn, hk⟩ :=
        ih (insertKey (eraseKey A id0) id0 s2) hnd' (hcomp' _ hsame)
      refine ⟨m, ?_, fun id => ?_, fun id => ?_⟩
      · rw [extend, hL]
        dsimp only
        rw [hM]
        exact hm
      · rw [hn id]
        by_cases hid : id = id0
        · subst hid
          simp [nReqAt, get_state_ref_insertKey, get_state_ref, hL, hrest0,
            addO, merge_n_required s1 s0 s2 hM]
        · rw [nReqAt, get_state_ref_insertKey, if_neg hid,
            get_state_ref_eraseKey, if_neg hid,
            show nReqAt ((id0, s0) :: rest) id = nReqAt rest id from by
              rw [nReqAt, get_state_ref, if_neg (fun hh => hid hh.symm)]; rfl]
          rfl
      · rw [hk id]
        by_cases hid : id = id0
        · subst hid
          simp [kindAt, get_state_ref_insertKey, get_state_ref, hL, hrest0,
            orK, merge_isComputed s1 s0 s2 hM]
        · rw [kindAt, get_state_ref_insertKey, if_neg hid,
            get_state_ref_eraseKey, if_neg hid,
            show kindAt ((id0, s0) :: rest) id = kindAt rest id from by
              rw [kindAt, get_state_ref, if_neg (fun hh => hid hh.symm)]; rfl]
          rfl

/-- C3: for maps `A`, `B`, `C` (with the hashmap unique-key representation)
in which every node shared between two maps has states of the same kind,
merging them via `extend` succeeds and yields, at every node, the same final
`n_required` counter regardless of the order and grouping of the merges. -/
theorem extend_order_independent (A B C : BackwardStates)
    (hA : NodupKeys A) (hB : NodupKeys B) (hC : NodupKeys C)
    (hAB : compatible A B = true) (hAC : compatible A C = true)
    (hBC : compatible B C = true) :
    ∃ mAB mBC mCB mBA m1 m2 m3 m4,
      extend A B = some mAB ∧ extend mAB C = some m1 ∧
      extend B C = some mBC ∧ extend A mBC = some m2 ∧
      extend C B = some mCB ∧ extend mCB A = some m3 ∧
      extend B A = some mBA ∧ extend mBA C = some m4 ∧
      (∀ id, nReqAt m1 id = nReqAt m2 id) ∧
      (∀ id, nReqAt m1 id = nReqAt m3 id) ∧
      (∀ id, nReqAt m1 id = nReqAt m4 id) := by
  have kAB := KCompat_of_compatible A B hAB
  have kAC := KCompat_of_compatible A C hAC
  have kBC := KCompat_of_compatible B C hBC
  obtain ⟨mAB, hmAB, hnAB, hkAB2⟩ :=
    extend_char B A hB (entrywise_of_KCompat A B hB kAB)
  have kABC : KCompat mAB C := KCompat_of_kindAt_orK A B mAB C hkAB2 kAC kBC
  obtain ⟨m1, hm1, hn1, hk1⟩ :=
    extend_char C mAB hC (entrywise_of_KCompat mAB C hC kABC)
  obtain ⟨mBC, hmBC, hnBC, hkBC2⟩ :=
    extend_char C B hC (entrywise_of_KCompat B C hC kBC)
  have ndBC : NodupKeys mBC := extend_NodupKeys C B mBC hB hmBC
  have kA_BC : KCompat A mBC := KCompat_symm _ _
    (KCompat_of_kindAt_orK B C mBC A hkBC2
      (KCompat_symm A B kAB) (KCompat_symm A C kAC))
  obtain ⟨m2, hm2, hn2, -⟩ :=
    extend_char mBC A ndBC (entrywise_of_KCompat A mBC ndBC kA_BC)
  obtain ⟨mCB, hmCB, hnCB, hkCB2⟩ :=
    extend_char B C hB (entrywise_of_KCompat C B hB (KCompat_symm B C kBC))
  have kCB_A : KCompat mCB A := KCompat_of_kindAt_orK C B mCB A hkCB2
    (KCompat_symm A C kAC) (KCompat_symm A B kAB)
  obtain ⟨m3, hm3, hn3, -⟩ :=
    extend_char A mCB hA (entrywise_of_KCompat mCB A hA kCB_A)
  obtain ⟨mBA, hmBA, hnBA, hkBA2⟩ :=
    extend_char A B hA (entrywise_of_KCompat B A hA (KCompat_symm A B kAB))
  have kBA_C : KCompat mBA C := KCompat_of_kindAt_orK B A mBA C hkBA2 kBC kAC
  obtain ⟨m4, hm4, hn4, -⟩ :=
    extend_char C mBA hC (entrywise_of_KCompat mBA C hC kBA_C)
  refine ⟨mAB, mBC, mCB, mBA, m1, m2, m3, m4, hmAB, hm1, hmBC, hm2, hmCB,
    hm3, hmBA, hm4, ?_, ?_, ?_⟩
  · intro id
    rw [hn1 id, hnAB id, hn2 id, hnBC id, addO_assoc]
  · intro id
    rw [hn1 id, hnAB id, hn3 id, hnCB id]
    calc addO (addO (nReqAt A id) (nReqAt B id)) (nReqAt C id)
        = addO (nReqAt C id) (addO (nReqAt A id) (nReqAt B id)) :=
          addO_comm _ _
      _ = addO (nReqAt C id) (addO (nReqAt B id) (nReqAt A id)) := by
          rw [addO_comm (nReqAt A id) (nReqAt B id)]
      _ = addO (addO (nReqAt C id) (nReqAt B id)) (nReqAt A id) :=
          (addO_assoc _ _ _).symm
  · intro id
    rw [hn1 id, hnAB id, hn4 id, hnBA id,
      addO_comm (nReqAt A id) (nReqAt B id)]

theorem extend_order_independent_witness :
    ∃ mAB mBC mCB mBA m1 m2 m3 m4,
      extend [(0, State.Recompute 2), (1, State.Computed ⟨0, 5⟩ 1)]
          [(0, State.Recompute 3)] = some mAB ∧
      extend mAB [(0, State.Recompute 1), (2, State.Computed ⟨1, 4⟩ 2)]
        = some m1 ∧
      extend [(0, State.Recompute 3)]
          [(0, State.Recompute 1), (2, State.Computed ⟨1, 4⟩ 2)] = some mBC ∧
      extend [(0, State.Recompute 2), (1, State.Computed ⟨0, 5⟩ 1)] mBC
        = some m2 ∧
      extend [(0, State.Recompute 1), (2, State.Computed ⟨1, 4⟩ 2)]
          [(0, State.Recompute 3)] = some mCB ∧
      extend mCB [(0, State.Recompute 2), (1, State.Computed ⟨0, 5⟩ 1)]
        = some m3 ∧
      extend [(0, State.Recompute 3)]
          [(0, State.Recompute 2), (1, State.Computed ⟨0, 5⟩ 1)] = some mBA ∧
      extend mBA [(0, State.Recompute 1), (2, State.Computed ⟨1, 4⟩ 2)]
        = some m4 ∧
      (∀ id, nReqAt m1 id = nReqAt m2 id) ∧
      (∀ id, nReqAt m1 id = nReqAt m3 id) ∧
      (∀ id, nReqAt m1 id = nReqAt m4 id) :=
  extend_order_independent
    [(0, State.Recompute 2), (1, State.Computed ⟨0, 5⟩ 1)]
    [(0, State.Recompute 3)]
    [(0, State.Recompute 1), (2, State.Computed ⟨1, 4⟩ 2)]
    (by decide) (by decide) (by decide) (by decide) (by decide) (by decide)

end Burn
